import Mathlib

/-!
Verification of the batch scheduling and publishing pipeline of this
repository (Facebook post scheduler).  Absolute times are modelled in
minutes: a time `t : ℕ` is `t / 1440` calendar days plus the time of day
`t % 1440` (the JavaScript `Date` arithmetic of the source manipulates
local calendar time; days are modelled as uniform 1440-minute spans).
-/

namespace Scheduler

def hourOf (t : ℕ) : ℕ := t / 60 % 24

def minuteOf (t : ℕ) : ℕ := t % 60

def dayOf (t : ℕ) : ℕ := t / 1440

/-- The manual-cadence settings of `SchedulerSettings` (`startDate`,
`startTime`, `endTime`, `interval`), with the start date as a calendar day
number. -/
structure ManualConfig where
  startDay : ℕ
  startH : ℕ
  startM : ℕ
  endH : ℕ
  endM : ℕ
  interval : ℕ

/-- `startDate` at `startTime`: the running clock before the loop of
`handleSchedulingProcess` (manual branch). -/
def manualStart (c : ManualConfig) : ℕ :=
  c.startDay * 1440 + c.startH * 60 + c.startM

/-- One advance of the running clock after an emission, transcribed from
`handleSchedulingProcess`: `setMinutes(+interval)`, then if
`getHours() > endH || (getHours() === endH && getMinutes() > endM)` roll to
the next calendar day at `startTime`. -/
def manualStep (c : ManualConfig) (t : ℕ) : ℕ :=
  if hourOf (t + c.interval) > c.endH ∨
      (hourOf (t + c.interval) = c.endH ∧ minuteOf (t + c.interval) > c.endM) then
    (dayOf (t + c.interval) + 1) * 1440 + c.startH * 60 + c.startM
  else
    t + c.interval

/-- The manual allocator: emit the running clock, then advance it, `n` times. -/
def manualSchedule (c : ManualConfig) : ℕ → ℕ → List ℕ
  | 0, _ => []
  | n + 1, t => t :: manualSchedule c n (manualStep c t)

/-- Refinement partner for the spec's words: the day-rollover condition is the
advanced time of day exceeding `endTime` compared as an (hour, minute) pair,
lexicographically. -/
def manualStepSpec (c : ManualConfig) (t : ℕ) : ℕ :=
  if Prod.Lex (· < ·) (· < ·) (c.endH, c.endM)
      (hourOf (t + c.interval), minuteOf (t + c.interval)) then
    (dayOf (t + c.interval) + 1) * 1440 + c.startH * 60 + c.startM
  else
    t + c.interval

theorem manualStep_eq_spec (c : ManualConfig) (t : ℕ) :
    manualStep c t = manualStepSpec c t := by
  unfold manualStep manualStepSpec
  rcases Nat.lt_trichotomy (hourOf (t + c.interval)) c.endH with h | h | h
  · rw [if_neg (by omega), if_neg]
    rw [Prod.lex_def]
    simp only [not_or, not_and]
    omega
  · rcases Nat.lt_trichotomy (minuteOf (t + c.interval)) c.endM with h2 | h2 | h2
    · rw [if_neg (by omega), if_neg]
      rw [Prod.lex_def]
      simp only [not_or, not_and]
      omega
    · rw [if_neg (by omega), if_neg]
      rw [Prod.lex_def]
      simp only [not_or, not_and]
      omega
    · rw [if_pos (by omega), if_pos]
      rw [Prod.lex_def]
      right
      exact ⟨h.symm, h2⟩
  · rw [if_pos (by omega), if_pos]
    rw [Prod.lex_def]
    left
    exact h

theorem length_manualSchedule (c : ManualConfig) :
    ∀ n t, (manualSchedule c n t).length = n := by
  intro n
  induction n with
  | zero => intro t; rfl
  | succ k ih => intro t; simp [manualSchedule, ih]

/-- The concrete config of the spec's test property: start 09:00, end 22:00,
interval 60 minutes. -/
def demoConfig (d0 : ℕ) : ManualConfig := ⟨d0, 9, 0, 22, 0, 60⟩

theorem demo_manualSchedule (d0 : ℕ) :
    manualSchedule (demoConfig d0) 5 (manualStart (demoConfig d0)) =
      [d0 * 1440 + 540, d0 * 1440 + 600, d0 * 1440 + 660,
       d0 * 1440 + 720, d0 * 1440 + 780] := by
  have hstart : manualStart (demoConfig d0) = d0 * 1440 + 540 := by
    simp [manualStart, demoConfig]
  have step : ∀ m, 540 ≤ m → m ≤ 720 →
      manualStep (demoConfig d0) (d0 * 1440 + m) = d0 * 1440 + (m + 60) := by
    intro m hm1 hm2
    simp only [manualStep, demoConfig, hourOf, minuteOf, dayOf]
    split <;> omega
  rw [hstart]
  simp only [manualSchedule]
  rw [step 540 (by omega) (by omega)]
  rw [step 600 (by omega) (by omega)]
  rw [step 660 (by omega) (by omega)]
  rw [step 720 (by omega) (by omega)]

/-- C1: for every file count `n ≥ 1` with `intervalMinutes > 0`, the manual
allocator emits exactly `n` timestamps, the day-rollover rule is the
lexicographic (hour, minute) comparison against `endTime` stated by the spec,
and for count 5, interval 60, start 09:00, end 22:00 the five timestamps are
strictly increasing, each within [09:00, 22:00] on some day ≥ the start
date. -/
theorem C1_manual_allocation (c : ManualConfig) (n : ℕ) (hn : 1 ≤ n)
    (hi : 0 < c.interval) (d0 : ℕ) :
    (manualSchedule c n (manualStart c)).length = n ∧
    (∀ t, manualStep c t = manualStepSpec c t) ∧
    List.Pairwise (· < ·)
      (manualSchedule (demoConfig d0) 5 (manualStart (demoConfig d0))) ∧
    (∀ t ∈ manualSchedule (demoConfig d0) 5 (manualStart (demoConfig d0)),
      540 ≤ t % 1440 ∧ t % 1440 ≤ 1320 ∧ d0 ≤ dayOf t) := by
  refine ⟨length_manualSchedule c n (manualStart c),
    fun t => manualStep_eq_spec c t, ?_, ?_⟩
  · rw [demo_manualSchedule]
    simp only [List.pairwise_cons, List.mem_cons, List.not_mem_nil, or_false,
      List.mem_singleton, forall_eq_or_imp, forall_eq, false_implies,
      forall_const, List.Pairwise.nil, and_true]
    omega
  · rw [demo_manualSchedule]
    intro t ht
    simp only [List.mem_cons, List.not_mem_nil, or_false] at ht
    unfold dayOf
    rcases ht with h | h | h | h | h <;> subst h <;> omega

/-- Witness for C1 at a concrete configuration. -/
theorem C1_manual_allocation_witness :
    (manualSchedule ⟨20000, 9, 0, 22, 0, 60⟩ 5
        (manualStart ⟨20000, 9, 0, 22, 0, 60⟩)).length = 5 :=
  (C1_manual_allocation ⟨20000, 9, 0, 22, 0, 60⟩ 5 (by decide) (by decide)
    20000).1

/-! ### Smart allocator (`fetchPageInsights`, `getSmartSchedule`) -/

/-- The hard-coded hourly engagement table returned by `fetchPageInsights`
(index = hour of day 0-23). -/
def insightsData : List ℕ :=
  [100, 80, 70, 60, 50, 60, 80, 120, 150, 200, 250, 300,
   320, 310, 280, 260, 300, 350, 450, 500, 520, 480, 400, 250]

/-- `fetchPageInsights` ignores its page argument and returns the constant
table. -/
def fetchPageInsights (_page : String) : List ℕ := insightsData

/-- `insights.map((followers, hour) => ({hour, followers}))` followed by the
sort descending on followers; pairs are `(hour, followers)`. -/
def rankedHours (ins : List ℕ) : List (ℕ × ℕ) :=
  List.insertionSort (fun a b => a.2 ≥ b.2) (ins.enum)

/-- The hour component of entry `k` of the ranked hour list
(`hoursWithFollowers[k].hour`). -/
def topHour (ins : List ℕ) (k : ℕ) : ℕ := ((rankedHours ins).getD k (0, 0)).1

/-- The generation loop of `getSmartSchedule`, with the running calendar day
as explicit state: at index `i`, advance the day when `i > 0 && i % 3 === 0`,
build the candidate at `(day, rankedHours[i % 5].hour, mins i)` and push it
one day forward when it is below `now + 10` minutes. `mins i` models the
`Math.floor(Math.random() * 60)` draw for index `i`. -/
def smartGo (now : ℕ) (mins : ℕ → ℕ) (ins : List ℕ) : ℕ → ℕ → ℕ → List ℕ
  | 0, _, _ => []
  | k + 1, i, curDay =>
    let day := if 0 < i ∧ i % 3 = 0 then curDay + 1 else curDay
    let cand := day * 1440 + topHour ins (i % 5) * 60 + mins i
    let cand2 := if cand < now + 10 then cand + 1440 else cand
    cand2 :: smartGo now mins ins k (i + 1) day

/-- `getSmartSchedule`: run the loop for `count` indices starting on the day
after `now`, then sort ascending. -/
def getSmartSchedule (page : String) (now : ℕ) (mins : ℕ → ℕ) (count : ℕ) :
    List ℕ :=
  List.insertionSort (· ≤ ·)
    (smartGo now mins (fetchPageInsights page) count 0 (now / 1440 + 1))

/-- The candidate of index `i` (generation starting on day `base`) before the
10-minute lead-time correction. -/
def preCandidate (mins : ℕ → ℕ) (ins : List ℕ) (base i : ℕ) : ℕ :=
  (base + i / 3) * 1440 + topHour ins (i % 5) * 60 + mins i

/-- The candidate of index `i` after the single lead-time correction. -/
def smartCandidate (now : ℕ) (mins : ℕ → ℕ) (ins : List ℕ) (base i : ℕ) : ℕ :=
  if preCandidate mins ins base i < now + 10 then
    preCandidate mins ins base i + 1440
  else
    preCandidate mins ins base i

theorem smartGo_closed (now : ℕ) (mins : ℕ → ℕ) (ins : List ℕ) :
    ∀ k i base, 1 ≤ i →
      smartGo now mins ins k i (base + (i - 1) / 3) =
        (List.range k).map (fun j => smartCandidate now mins ins base (i + j)) := by
  intro k
  induction k with
  | zero => intro i base hi; rfl
  | succ k ih =>
    intro i base hi
    simp only [smartGo]
    have hday : (if 0 < i ∧ i % 3 = 0 then base + (i - 1) / 3 + 1
        else base + (i - 1) / 3) = base + i / 3 := by
      split <;> omega
    rw [hday]
    have htail : smartGo now mins ins k (i + 1) (base + i / 3) =
        (List.range k).map (fun j => smartCandidate now mins ins base (i + 1 + j)) := by
      have := ih (i + 1) base (by omega)
      have heq : (i + 1 - 1) / 3 = i / 3 := by omega
      rw [heq] at this
      exact this
    rw [htail, List.range_succ_eq_map, List.map_cons, List.map_map]
    have h2 : ∀ j ∈ List.range k,
        ((fun j => smartCandidate now mins ins base (i + j)) ∘ Nat.succ) j =
          smartCandidate now mins ins base (i + 1 + j) := by
      intro j _
      simp only [Function.comp_apply]
      congr 1
      omega
    rw [List.map_congr_left h2, Nat.add_zero]
    simp [smartCandidate, preCandidate]

theorem smartGo_from_zero (now : ℕ) (mins : ℕ → ℕ) (ins : List ℕ) (k base : ℕ) :
    smartGo now mins ins k 0 base =
      (List.range k).map (fun j => smartCandidate now mins ins base j) := by
  cases k with
  | zero => rfl
  | succ k =>
    have hstep : smartGo now mins ins (k + 1) 0 base =
        (if base * 1440 + topHour ins 0 * 60 + mins 0 < now + 10 then
          base * 1440 + topHour ins 0 * 60 + mins 0 + 1440
        else base * 1440 + topHour ins 0 * 60 + mins 0) ::
          smartGo now mins ins k 1 base := rfl
    rw [hstep]
    have htail := smartGo_closed now mins ins k 1 base (by omega)
    rw [show (1 - 1) / 3 = 0 from rfl, Nat.add_zero] at htail
    rw [htail, List.range_succ_eq_map, List.map_cons, List.map_map]
    have h2 : ∀ j ∈ List.range k,
        ((fun j => smartCandidate now mins ins base j) ∘ Nat.succ) j =
          smartCandidate now mins ins base (1 + j) := by
      intro j _
      simp only [Function.comp_apply]
      congr 1
      omega
    rw [List.map_congr_left h2]
    simp [smartCandidate, preCandidate]

/-- C2: for every count and every choice of random minutes, the smart
allocator returns exactly `count` timestamps sorted ascending, each one the
candidate of some index `i < count` (built from the top-5 ranked hour at
index `i mod 5`, on day tomorrow + `i / 3`, with the single add-one-day
correction), and none earlier than `now + 10` minutes. -/
theorem C2_smart_allocation (page : String) (now : ℕ) (mins : ℕ → ℕ)
    (count : ℕ) (hc : 1 ≤ count) (hm : ∀ i, mins i < 60) :
    (getSmartSchedule page now mins count).length = count ∧
    List.Sorted (· ≤ ·) (getSmartSchedule page now mins count) ∧
    (∀ t ∈ getSmartSchedule page now mins count,
      ∃ i < count, t = smartCandidate now mins insightsData (now / 1440 + 1) i) ∧
    (∀ t ∈ getSmartSchedule page now mins count, now + 10 ≤ t) := by
  have hins : fetchPageInsights page = insightsData := rfl
  have hmem : ∀ t, t ∈ getSmartSchedule page now mins count ↔
      ∃ i < count, t = smartCandidate now mins insightsData (now / 1440 + 1) i := by
    intro t
    unfold getSmartSchedule
    rw [hins, List.mem_insertionSort, smartGo_from_zero]
    simp only [List.mem_map, List.mem_range]
    constructor
    · rintro ⟨j, hj, rfl⟩; exact ⟨j, hj, rfl⟩
    · rintro ⟨j, hj, rfl⟩; exact ⟨j, hj, rfl⟩
  refine ⟨?_, ?_, fun t ht => (hmem t).1 ht, ?_⟩
  · unfold getSmartSchedule
    rw [List.length_insertionSort, hins, smartGo_from_zero, List.length_map,
      List.length_range]
  · exact List.sorted_insertionSort (· ≤ ·) _
  · intro t ht
    obtain ⟨i, _, rfl⟩ := (hmem t).1 ht
    unfold smartCandidate preCandidate
    split <;> omega

/-- Witness for C2 at a concrete page, time and minute stream. -/
theorem C2_smart_allocation_witness :
    (getSmartSchedule "page" 1000000 (fun _ => 0) 4).length = 4 :=
  (C2_smart_allocation "page" 1000000 (fun _ => 0) 4 (by decide)
    (by intro i; norm_num)).1

/-- C10: the engagement weights are a hardcoded constant array independent of
the page, whose top-5 ranked hours are {18, 19, 20, 21, 22}; consequently the
hour of every smart candidate before the lead-time correction lies in that
set. -/
theorem C10_constant_insights (p q : String) (now : ℕ) (mins : ℕ → ℕ)
    (count : ℕ) (hm : ∀ i, mins i < 60) :
    fetchPageInsights p = fetchPageInsights q ∧
    (∀ i : ℕ, topHour insightsData (i % 5) ∈ ([18, 19, 20, 21, 22] : List ℕ)) ∧
    (∀ t ∈ getSmartSchedule p now mins count,
      ∃ i < count, t = smartCandidate now mins insightsData (now / 1440 + 1) i ∧
        hourOf (preCandidate mins insightsData (now / 1440 + 1) i) ∈
          ([18, 19, 20, 21, 22] : List ℕ)) := by
  have htop : ∀ i : ℕ, topHour insightsData (i % 5) ∈ ([18, 19, 20, 21, 22] : List ℕ) := by
    intro i
    have h5 : i % 5 = 0 ∨ i % 5 = 1 ∨ i % 5 = 2 ∨ i % 5 = 3 ∨ i % 5 = 4 := by omega
    rcases h5 with h | h | h | h | h <;> rw [h] <;> decide
  refine ⟨rfl, htop, ?_⟩
  intro t ht
  have hmem : t ∈ getSmartSchedule "x" now mins count := by
    unfold getSmartSchedule at ht ⊢
    exact ht
  unfold getSmartSchedule at ht
  rw [List.mem_insertionSort, smartGo_from_zero] at ht
  simp only [List.mem_map, List.mem_range] at ht
  obtain ⟨i, hi, rfl⟩ := ht
  refine ⟨i, hi, rfl, ?_⟩
  have hhour : hourOf (preCandidate mins insightsData (now / 1440 + 1) i) =
      topHour insightsData (i % 5) := by
    have h24 : topHour insightsData (i % 5) < 24 := by
      have := htop i
      simp only [List.mem_cons, List.not_mem_nil, or_false] at this
      omega
    have hmi := hm i
    unfold preCandidate hourOf
    omega
  rw [hhour]
  exact htop i

/-! ### Pipeline runner (`handleSchedulingProcess` of the uploader page)

The runner is single-threaded JavaScript: the pause flag and the cancel
token can only change while the runner is suspended at an `await`.  We count
those suspension points with a counter `τ` (each `sleep(1000)` of the pause
wait and each per-item `uploadPost` call advances it by one) and read the
flags as functions of `τ`.  The informational log entries internal to
`uploadPost` are abstracted into the `attempt` event marking the
enhancement + publish call for an item. -/

inductive LogStatus where
  | info
  | success
  | error
deriving DecidableEq

/-- Observable actions of a run: log entries (`addLog`, the item given by
index), notifications, the progress counter, the `isScheduling` /
`isPaused` setters, the log reset, writes to the cancel token, the
auth-failure callback (`handleLogout`), the enhancement + publish call for
an item, and the dedup-history persistence write. -/
inductive Event where
  | log : Option ℕ → LogStatus → String → Event
  | notify : String → Event
  | progress : ℕ → ℕ → Event
  | running : Bool → Event
  | paused : Bool → Event
  | clearLog : Event
  | setCancel : Bool → Event
  | logout : Event
  | attempt : ℕ → Event
  | persist : List String → Event
deriving DecidableEq

/-- The environment of one run: the two flags as functions of the suspension
counter, and per item the combined result of the enhancement and publish
calls — a post id, or the thrown error message. -/
structure Env where
  pause : ℕ → Bool
  cancel : ℕ → Bool
  outcome : ℕ → Except String String

/-- `needle` is a prefix of `hay` (character-wise). -/
def matchesAt : List Char → List Char → Bool
  | [], _ => true
  | _ :: _, [] => false
  | a :: as, b :: bs => a == b && matchesAt as bs

/-- `hay.includes(needle)` on character lists. -/
def containsSub (needle : List Char) : List Char → Bool
  | [] => matchesAt needle []
  | c :: cs => matchesAt needle (c :: cs) || containsSub needle cs

/-- The auth-expiry classification of a failure message:
`message.toLowerCase()` contains "session", "token" or "oauth". -/
def isAuthMsg (m : String) : Bool :=
  containsSub "session".toList (m.toList.map Char.toLower) ||
    containsSub "token".toList (m.toList.map Char.toLower) ||
    containsSub "oauth".toList (m.toList.map Char.toLower)

/-- Whether an item outcome is a failure classified as auth expiry. -/
def isAuthOutcome : Except String String → Bool
  | .ok _ => false
  | .error m => isAuthMsg m

/-- The pause wait of the uploader page:
`while (isPausedRef.current) { if (cancelled) break; await sleep(1000); }`.
Returns the suspension counter at exit; `fuel` bounds the number of polls
(the source loop can spin unboundedly while paused). -/
def pauseWait (env : Env) : ℕ → ℕ → ℕ
  | 0, τ => τ
  | f + 1, τ =>
    if env.pause τ then
      if env.cancel τ then τ else pauseWait env f (τ + 1)
    else τ

def cancelledEvents : List Event :=
  [.log none .info "Scheduling cancelled by user.",
   .notify "Scheduling process cancelled."]

def authAbortEvents : List Event :=
  [.notify "Facebook token expired during operation. Please log in again.",
   .logout]

def completionEvents : List Event :=
  [.log none .info "Scheduling complete.",
   .notify "Bulk scheduling process has finished.",
   .running false, .paused false]

/-- The log entry of the defensive dispatch-time lead-time correction:
emitted when `slots i` is below `now + 10` minutes. -/
def adjustEvents (slots : ℕ → ℕ) (now i : ℕ) : List Event :=
  if slots i < now + 10 then
    [.log (some i) .info "Time is in the past. Auto-adjusted to next day."]
  else []

/-- The per-item loop of `handleSchedulingProcess` over the remaining item
indices: cancel check, pause wait, progress, lead-time check on the slot,
then `uploadPost` with its outcome; an auth-classified failure notifies,
invokes the auth-failure callback and breaks, any other failure continues
with the next item. -/
def runLoop (env : Env) (slots : ℕ → ℕ) (now n fuel : ℕ) :
    List ℕ → ℕ → List Event
  | [], _ => []
  | i :: rest, τ =>
    if env.cancel τ then cancelledEvents
    else
      .progress (i + 1) n ::
      (adjustEvents slots now i ++
        .attempt i ::
        match env.outcome i with
        | .ok postId =>
          .log (some i) .success ("Scheduled successfully! Post ID: " ++ postId) ::
            runLoop env slots now n fuel rest (pauseWait env fuel τ + 1)
        | .error m =>
          .log (some i) .error ("Failed: " ++ m) ::
            if isAuthMsg m then authAbortEvents
            else runLoop env slots now n fuel rest (pauseWait env fuel τ + 1))

/-- The events of the run-state reset at the start of a run, up to and
including the generation announcement log. -/
def startEvents (smart : Bool) (n : ℕ) : List Event :=
  [.running true, .paused false, .setCancel false, .clearLog,
   .progress 0 n,
   .log none .info (if smart then
     "Using Smart Schedule. Generating optimal post times..."
     else "Using Manual Schedule...")]

/-- The post-generation announcement of the smart branch. -/
def smartGenEvents (smart : Bool) : List Event :=
  if smart then [.log none .info "Smart Schedule generated post times."]
  else []

/-- The events of the slot-generation catch branch. -/
def genFailEvents (m : String) : List Event :=
  [.log none .error ("Schedule generation failed: " ++ m),
   .notify ("Could not generate schedule: " ++ m),
   .running false]

/-- `handleSchedulingProcess` of the uploader page: the stop-toggle branch,
validation, the run-state reset, slot generation (`gen` is its result: the
slot array, or the thrown message), the item loop and the completion tail. -/
def schedulingProcess (isScheduling : Bool) (n : ℕ) (hasPage : Bool)
    (smart : Bool) (gen : Except String (ℕ → ℕ)) (env : Env)
    (now fuel : ℕ) : List Event :=
  if isScheduling then
    [.setCancel true, .log none .info "Stopping scheduling process..."]
  else if n = 0 then
    [.log none .error "No files selected to schedule.",
     .notify "No files selected to schedule."]
  else if !hasPage then
    [.log none .error "No Facebook Page selected.",
     .notify "No Facebook Page selected."]
  else
    startEvents smart n ++
    match gen with
    | .error m => genFailEvents m
    | .ok slots =>
      smartGenEvents smart ++
      runLoop env slots now n fuel (List.range n) 0 ++ completionEvents

theorem attempt_nmem_startEvents (smart : Bool) (n j : ℕ) :
    Event.attempt j ∉ startEvents smart n := by
  simp [startEvents]

theorem logout_nmem_startEvents (smart : Bool) (n : ℕ) :
    Event.logout ∉ startEvents smart n := by
  simp [startEvents]

theorem attempt_nmem_smartGenEvents (smart : Bool) (j : ℕ) :
    Event.attempt j ∉ smartGenEvents smart := by
  cases smart <;> simp [smartGenEvents]

theorem logout_nmem_smartGenEvents (smart : Bool) :
    Event.logout ∉ smartGenEvents smart := by
  cases smart <;> simp [smartGenEvents]

theorem attempt_nmem_genFailEvents (m : String) (j : ℕ) :
    Event.attempt j ∉ genFailEvents m := by
  simp [genFailEvents]

theorem attempt_nmem_completionEvents (j : ℕ) :
    Event.attempt j ∉ completionEvents := by
  simp [completionEvents]

theorem logout_nmem_completionEvents : Event.logout ∉ completionEvents := by
  simp [completionEvents]

theorem attempt_nmem_authAbortEvents (j : ℕ) :
    Event.attempt j ∉ authAbortEvents := by
  simp [authAbortEvents]

theorem attempt_nmem_cancelledEvents (j : ℕ) :
    Event.attempt j ∉ cancelledEvents := by
  simp [cancelledEvents]

theorem logout_nmem_cancelledEvents : Event.logout ∉ cancelledEvents := by
  simp [cancelledEvents]

theorem pauseWait_of_pause_false (env : Env) (f τ : ℕ)
    (h : env.pause τ = false) : pauseWait env f τ = τ := by
  cases f <;> simp [pauseWait, h]

theorem mem_adjustEvents (slots : ℕ → ℕ) (now i : ℕ) (e : Event)
    (h : e ∈ adjustEvents slots now i) :
    e = Event.log (some i) .info
      "Time is in the past. Auto-adjusted to next day." := by
  unfold adjustEvents at h
  split at h <;> simp_all

theorem logout_not_mem_adjustEvents (slots : ℕ → ℕ) (now i : ℕ) :
    Event.logout ∉ adjustEvents slots now i := by
  intro h
  exact absurd (mem_adjustEvents slots now i _ h) (by simp)

theorem attempt_not_mem_adjustEvents (slots : ℕ → ℕ) (now i j : ℕ) :
    Event.attempt j ∉ adjustEvents slots now i := by
  intro h
  exact absurd (mem_adjustEvents slots now i _ h) (by simp)

/-- Which item an event refers to (the item of a log entry, or of an
enhancement + publish attempt). -/
def eventItem : Event → Option ℕ
  | .attempt i => some i
  | .log (some i) _ _ => some i
  | _ => none

theorem eventItem_mem_runLoop (env : Env) (slots : ℕ → ℕ) (now n fuel j : ℕ) :
    ∀ items τ e, e ∈ runLoop env slots now n fuel items τ →
      eventItem e = some j → j ∈ items := by
  intro items
  induction items with
  | nil => intro τ e h _; simp [runLoop] at h
  | cons i rest ih =>
    intro τ e h hj
    by_cases hcan : env.cancel τ
    · rw [runLoop, if_pos hcan] at h
      simp only [cancelledEvents, List.mem_cons, List.not_mem_nil,
        or_false] at h
      rcases h with rfl | rfl <;> simp [eventItem] at hj
    · rw [runLoop, if_neg hcan] at h
      rcases hout : env.outcome i with m | p
      · rw [hout] at h
        simp only [List.mem_cons, List.mem_append] at h
        rcases h with rfl | h | rfl | rfl | h
        · simp [eventItem] at hj
        · have := mem_adjustEvents slots now i _ h
          subst this
          simp only [eventItem, Option.some.injEq] at hj
          simp [hj]
        · simp only [eventItem, Option.some.injEq] at hj
          simp [hj]
        · simp only [eventItem, Option.some.injEq] at hj
          simp [hj]
        · split at h
          · simp only [authAbortEvents, List.mem_cons, List.not_mem_nil,
              or_false] at h
            rcases h with rfl | rfl <;> simp [eventItem] at hj
          · exact List.mem_cons_of_mem _ (ih _ e h hj)
      · rw [hout] at h
        simp only [List.mem_cons, List.mem_append] at h
        rcases h with rfl | h | rfl | rfl | h
        · simp [eventItem] at hj
        · have := mem_adjustEvents slots now i _ h
          subst this
          simp only [eventItem, Option.some.injEq] at hj
          simp [hj]
        · simp only [eventItem, Option.some.injEq] at hj
          simp [hj]
        · simp only [eventItem, Option.some.injEq] at hj
          simp [hj]
        · exact List.mem_cons_of_mem _ (ih _ e h hj)

theorem runLoop_auth_break (env : Env) (slots : ℕ → ℕ) (now n fuel i : ℕ)
    (msg : String) (hout : env.outcome i = .error msg)
    (hauth : isAuthMsg msg = true) :
    ∀ m k τ, Event.attempt i ∈ runLoop env slots now n fuel (List.range' k m) τ →
      ∃ P, runLoop env slots now n fuel (List.range' k m) τ =
          P ++ Event.log (some i) .error ("Failed: " ++ msg) :: authAbortEvents ∧
        Event.logout ∉ P ∧ (∀ j, Event.attempt j ∈ P → j ≤ i) := by
  intro m
  induction m with
  | zero => intro k τ h; simp [runLoop] at h
  | succ m ih =>
    intro k τ h
    rw [List.range'_succ] at h ⊢
    by_cases hcan : env.cancel τ
    · rw [runLoop, if_pos hcan] at h
      simp [cancelledEvents] at h
    · rw [runLoop, if_neg hcan] at h ⊢
      by_cases hk : k = i
      · subst hk
        rw [hout] at h ⊢
        simp only [] at h ⊢
        rw [if_pos hauth]
        refine ⟨Event.progress (k + 1) n ::
          (adjustEvents slots now k ++ [Event.attempt k]), ?_, ?_, ?_⟩
        · simp
        · simp only [List.mem_cons, List.mem_append]
          push_neg
          exact ⟨by simp, logout_not_mem_adjustEvents slots now k, by simp⟩
        · intro j hj
          simp only [List.mem_cons, List.mem_append] at hj
          rcases hj with hj | hj | hj
          · simp at hj
          · exact absurd hj (attempt_not_mem_adjustEvents slots now k j)
          · simp only [List.mem_singleton, Event.attempt.injEq,
              List.not_mem_nil, or_false] at hj
            omega
      · rcases hout2 : env.outcome k with m2 | p2
        · rw [hout2] at h
          simp only [] at h ⊢
          by_cases hauth2 : isAuthMsg m2
          · rw [if_pos hauth2] at h
            simp only [List.mem_cons, List.mem_append] at h
            rcases h with h | h | h | h | h
            · simp at h
            · exact absurd h (attempt_not_mem_adjustEvents slots now k i)
            · simp only [Event.attempt.injEq] at h; exact absurd h.symm hk
            · simp at h
            · simp [authAbortEvents] at h
          · rw [if_neg hauth2] at h ⊢
            have hrec : Event.attempt i ∈ runLoop env slots now n fuel
                (List.range' (k + 1) m) (pauseWait env fuel τ + 1) := by
              simp only [List.mem_cons, List.mem_append] at h
              rcases h with h | h | h | h | h
              · simp at h
              · exact absurd h (attempt_not_mem_adjustEvents slots now k i)
              · simp only [Event.attempt.injEq] at h; exact absurd h.symm hk
              · simp at h
              · exact h
            obtain ⟨P, heq, hlog, hatt⟩ :=
              ih (k + 1) (pauseWait env fuel τ + 1) hrec
            refine ⟨Event.progress (k + 1) n ::
              (adjustEvents slots now k ++ Event.attempt k ::
                Event.log (some k) .error ("Failed: " ++ m2) :: P), ?_, ?_, ?_⟩
            · rw [heq]
              simp
            · simp only [List.mem_cons, List.mem_append]
              push_neg
              exact ⟨by simp, logout_not_mem_adjustEvents slots now k,
                by simp, by simp, hlog⟩
            · intro j hj
              have hki : k < i := by
                have := eventItem_mem_runLoop env slots now n fuel i _ _ _
                  hrec rfl
                rw [List.mem_range'_1] at this
                omega
              simp only [List.mem_cons, List.mem_append] at hj
              rcases hj with hj | hj | hj | hj | hj
              · simp at hj
              · exact absurd hj (attempt_not_mem_adjustEvents slots now k j)
              · simp only [Event.attempt.injEq] at hj
                omega
              · simp at hj
              · exact hatt j hj
        · rw [hout2] at h
          simp only [] at h ⊢
          have hrec : Event.attempt i ∈ runLoop env slots now n fuel
              (List.range' (k + 1) m) (pauseWait env fuel τ + 1) := by
            simp only [List.mem_cons, List.mem_append] at h
            rcases h with h | h | h | h | h
            · simp at h
            · exact absurd h (attempt_not_mem_adjustEvents slots now k i)
            · simp only [Event.attempt.injEq] at h; exact absurd h.symm hk
            · simp at h
            · exact h
          obtain ⟨P, heq, hlog, hatt⟩ :=
            ih (k + 1) (pauseWait env fuel τ + 1) hrec
          refine ⟨Event.progress (k + 1) n ::
            (adjustEvents slots now k ++ Event.attempt k ::
              Event.log (some k) .success
                ("Scheduled successfully! Post ID: " ++ p2) :: P), ?_, ?_, ?_⟩
          · rw [heq]
            simp
          · simp only [List.mem_cons, List.mem_append]
            push_neg
            exact ⟨by simp, logout_not_mem_adjustEvents slots now k,
              by simp, by simp, hlog⟩
          · intro j hj
            have hki : k < i := by
              have := eventItem_mem_runLoop env slots now n fuel i _ _ _
                hrec rfl
              rw [List.mem_range'_1] at this
              omega
            simp only [List.mem_cons, List.mem_append] at hj
            rcases hj with hj | hj | hj | hj | hj
            · simp at hj
            · exact absurd hj (attempt_not_mem_adjustEvents slots now k j)
            · simp only [Event.attempt.injEq] at hj
              omega
            · simp at hj
            · exact hatt j hj

theorem mem_runLoop_tail (env : Env) (slots : ℕ → ℕ) (now n fuel i : ℕ)
    (rest : List ℕ) (τ : ℕ) (hcan : ¬env.cancel τ = true)
    (hnotauth : isAuthOutcome (env.outcome i) = false) (e : Event)
    (he : e ∈ runLoop env slots now n fuel rest (pauseWait env fuel τ + 1)) :
    e ∈ runLoop env slots now n fuel (i :: rest) τ := by
  rw [runLoop, if_neg hcan]
  rcases hout : env.outcome i with m | p
  · have hna0 : isAuthMsg m = false := by
      rw [hout] at hnotauth
      simpa [isAuthOutcome] using hnotauth
    simp only []
    rw [if_neg (by simp [hna0])]
    exact List.mem_cons_of_mem _ (List.mem_append_right _
      (List.mem_cons_of_mem _ (List.mem_cons_of_mem _ he)))
  · simp only []
    exact List.mem_cons_of_mem _ (List.mem_append_right _
      (List.mem_cons_of_mem _ (List.mem_cons_of_mem _ he)))

theorem runLoop_complete (env : Env) (slots : ℕ → ℕ) (now n fuel : ℕ)
    (hc : ∀ τ, env.cancel τ = false) :
    ∀ items τ, (∀ a ∈ items, isAuthOutcome (env.outcome a) = false) →
      ∀ j ∈ items, Event.attempt j ∈ runLoop env slots now n fuel items τ ∧
        ∀ m, env.outcome j = .error m →
          Event.log (some j) .error ("Failed: " ++ m) ∈
            runLoop env slots now n fuel items τ := by
  intro items
  induction items with
  | nil => intro τ _ j hj; simp at hj
  | cons i rest ih =>
    intro τ hna j hj
    have hcanτ : ¬env.cancel τ = true := by simp [hc]
    rcases List.mem_cons.mp hj with rfl | hj
    · constructor
      · rw [runLoop, if_neg hcanτ]
        simp
      · intro m hm
        have hna0 : isAuthMsg m = false := by
          have := hna j (List.mem_cons_self j rest)
          rw [hm] at this
          simpa [isAuthOutcome] using this
        rw [runLoop, if_neg hcanτ, hm]
        simp [hna0]
    · have hrec := ih (pauseWait env fuel τ + 1)
        (fun a ha => hna a (List.mem_cons_of_mem i ha)) j hj
      exact ⟨mem_runLoop_tail env slots now n fuel i rest τ hcanτ
          (hna i (List.mem_cons_self i rest)) _ hrec.1,
        fun m hm => mem_runLoop_tail env slots now n fuel i rest τ hcanτ
          (hna i (List.mem_cons_self i rest)) _ (hrec.2 m hm)⟩

/-- C4: if the enhancement/publish call for item `i` fails with a message
containing "token", "session" or "oauth" (case-insensitively), the run
aborts immediately after logging that item's error: the whole trace is a
prefix (with no auth-failure callback and no attempt past item `i`) followed
by that error log, the fatal notice with the callback, and the completion
tail — no attempt of any item after `i` occurs anywhere, and the callback
fires exactly once. -/
theorem C4_auth_failure_aborts (env : Env) (slots : ℕ → ℕ)
    (now fuel n i : ℕ) (smart : Bool) (msg : String)
    (hout : env.outcome i = .error msg) (hauth : isAuthMsg msg = true)
    (hatt : Event.attempt i ∈
      schedulingProcess false n true smart (.ok slots) env now fuel) :
    ∃ P, schedulingProcess false n true smart (.ok slots) env now fuel =
        P ++ Event.log (some i) .error ("Failed: " ++ msg) ::
          (authAbortEvents ++ completionEvents) ∧
      Event.logout ∉ P ∧
      (∀ j, Event.attempt j ∈ P → j ≤ i) ∧
      (∀ j, Event.attempt j ∈
        schedulingProcess false n true smart (.ok slots) env now fuel →
          j ≤ i) ∧
      (∃ A B, schedulingProcess false n true smart (.ok slots) env now fuel =
        A ++ Event.logout :: B ∧ Event.logout ∉ A ∧ Event.logout ∉ B) := by
  by_cases hn : n = 0
  · subst hn
    simp [schedulingProcess] at hatt
  · have hEok : schedulingProcess false n true smart (.ok slots) env now fuel =
        startEvents smart n ++ (smartGenEvents smart ++
          (runLoop env slots now n fuel (List.range n) 0 ++
            completionEvents)) := by
      rw [schedulingProcess, if_neg (by simp), if_neg (by simp [hn]),
        if_neg (by simp)]
      simp
    have hloop : Event.attempt i ∈
        runLoop env slots now n fuel (List.range n) 0 := by
      rw [hEok] at hatt
      simp only [List.mem_append] at hatt
      rcases hatt with h | h | h | h
      · exact absurd h (attempt_nmem_startEvents smart n i)
      · exact absurd h (attempt_nmem_smartGenEvents smart i)
      · exact h
      · exact absurd h (attempt_nmem_completionEvents i)
    rw [List.range_eq_range'] at hloop
    obtain ⟨P, heq, hlogP, hattP⟩ :=
      runLoop_auth_break env slots now n fuel i msg hout hauth n 0 0 hloop
    have hE : schedulingProcess false n true smart (.ok slots) env now fuel =
        (startEvents smart n ++ smartGenEvents smart ++ P) ++
          Event.log (some i) .error ("Failed: " ++ msg) ::
            (authAbortEvents ++ completionEvents) := by
      rw [hEok, List.range_eq_range', heq]
      simp
    refine ⟨_, hE, ?_, ?_, ?_, ?_⟩
    · intro h
      simp only [List.mem_append] at h
      rcases h with (h | h) | h
      · exact absurd h (logout_nmem_startEvents smart n)
      · exact absurd h (logout_nmem_smartGenEvents smart)
      · exact hlogP h
    · intro j hj
      simp only [List.mem_append] at hj
      rcases hj with (hj | hj) | hj
      · exact absurd hj (attempt_nmem_startEvents smart n j)
      · exact absurd hj (attempt_nmem_smartGenEvents smart j)
      · exact hattP j hj
    · intro j hj
      rw [hE] at hj
      simp only [List.mem_append, List.mem_cons] at hj
      rcases hj with ((hj | hj) | hj) | hj | hj | hj
      · exact absurd hj (attempt_nmem_startEvents smart n j)
      · exact absurd hj (attempt_nmem_smartGenEvents smart j)
      · exact hattP j hj
      · simp at hj
      · exact absurd hj (attempt_nmem_authAbortEvents j)
      · exact absurd hj (attempt_nmem_completionEvents j)
    · refine ⟨(startEvents smart n ++ smartGenEvents smart ++ P) ++
        [Event.log (some i) .error ("Failed: " ++ msg),
         Event.notify
           "Facebook token expired during operation. Please log in again."],
        completionEvents, ?_, ?_, logout_nmem_completionEvents⟩
      · rw [hE]
        simp [authAbortEvents]
      · intro h
        simp only [List.mem_append, List.mem_cons, List.not_mem_nil,
          or_false] at h
        rcases h with ((h | h) | h) | h | h
        · exact absurd h (logout_nmem_startEvents smart n)
        · exact absurd h (logout_nmem_smartGenEvents smart)
        · exact hlogP h
        · simp at h
        · simp at h

/-- A run in which item 1 fails with an auth-classified message and the
other items succeed; the flags never change. -/
def envAuth : Env :=
  ⟨fun _ => false, fun _ => false,
   fun j => if j = 1 then .error "OAuth token expired" else .ok "42"⟩

/-- Witness for C4: a three-item run whose second item fails with an OAuth
message. -/
theorem C4_auth_failure_aborts_witness :
    ∃ P, schedulingProcess false 3 true false (.ok fun _ => 100000)
        envAuth 0 0 =
        P ++ Event.log (some 1) .error ("Failed: " ++ "OAuth token expired") ::
          (authAbortEvents ++ completionEvents) ∧
      Event.logout ∉ P ∧
      (∀ j, Event.attempt j ∈ P → j ≤ 1) ∧
      (∀ j, Event.attempt j ∈
        schedulingProcess false 3 true false (.ok fun _ => 100000)
          envAuth 0 0 → j ≤ 1) ∧
      (∃ A B, schedulingProcess false 3 true false (.ok fun _ => 100000)
          envAuth 0 0 =
        A ++ Event.logout :: B ∧ Event.logout ∉ A ∧ Event.logout ∉ B) :=
  C4_auth_failure_aborts envAuth (fun _ => 100000) 0 0 3 1 false
    "OAuth token expired" rfl (by decide) (by decide)

/-- C8: in a run that is never cancelled and whose failures are all
non-auth, a failure of item `i` logs that item's error and the run continues
through every remaining item, ending in the Completed state with the
"Scheduling complete." entry and the full completion tail. -/
theorem C8_nonfatal_failure_continues (env : Env) (slots : ℕ → ℕ)
    (now fuel n i : ℕ) (smart : Bool) (msg : String)
    (hc : ∀ τ, env.cancel τ = false)
    (hna : ∀ j, isAuthOutcome (env.outcome j) = false)
    (hi : i < n) (hout : env.outcome i = .error msg) :
    Event.log (some i) .error ("Failed: " ++ msg) ∈
      schedulingProcess false n true smart (.ok slots) env now fuel ∧
    (∀ j < n, Event.attempt j ∈
      schedulingProcess false n true smart (.ok slots) env now fuel) ∧
    Event.log none .info "Scheduling complete." ∈
      schedulingProcess false n true smart (.ok slots) env now fuel ∧
    (∃ Q, schedulingProcess false n true smart (.ok slots) env now fuel =
      Q ++ completionEvents) := by
  have hn : ¬n = 0 := by omega
  have hEok : schedulingProcess false n true smart (.ok slots) env now fuel =
      startEvents smart n ++ (smartGenEvents smart ++
        (runLoop env slots now n fuel (List.range n) 0 ++
          completionEvents)) := by
    rw [schedulingProcess, if_neg (by simp), if_neg (by simp [hn]),
      if_neg (by simp)]
    simp
  have hall := runLoop_complete env slots now n fuel hc (List.range n) 0
    (fun a _ => hna a)
  refine ⟨?_, ?_, ?_, ?_⟩
  · rw [hEok]
    refine List.mem_append_right _ (List.mem_append_right _
      (List.mem_append_left _ ?_))
    exact (hall i (List.mem_range.mpr hi)).2 msg hout
  · intro j hj
    rw [hEok]
    refine List.mem_append_right _ (List.mem_append_right _
      (List.mem_append_left _ ?_))
    exact (hall j (List.mem_range.mpr hj)).1
  · rw [hEok]
    refine List.mem_append_right _ (List.mem_append_right _
      (List.mem_append_right _ ?_))
    simp [completionEvents]
  · refine ⟨startEvents smart n ++ smartGenEvents smart ++
      runLoop env slots now n fuel (List.range n) 0, ?_⟩
    rw [hEok]
    simp

/-- A run in which item 0 fails with a non-auth message and the other items
succeed; the flags never change. -/
def envPlain : Env :=
  ⟨fun _ => false, fun _ => false,
   fun j => if j = 0 then .error "network down" else .ok "9"⟩

/-- Witness for C8: a two-item run whose first item fails with a non-auth
message. -/
theorem C8_nonfatal_failure_continues_witness :
    Event.log (some 0) .error ("Failed: " ++ "network down") ∈
      schedulingProcess false 2 true false (.ok fun _ => 100000)
        envPlain 0 0 ∧
    (∀ j < 2, Event.attempt j ∈
      schedulingProcess false 2 true false (.ok fun _ => 100000)
        envPlain 0 0) ∧
    Event.log none .info "Scheduling complete." ∈
      schedulingProcess false 2 true false (.ok fun _ => 100000)
        envPlain 0 0 ∧
    (∃ Q, schedulingProcess false 2 true false (.ok fun _ => 100000)
        envPlain 0 0 = Q ++ completionEvents) :=
  C8_nonfatal_failure_continues envPlain (fun _ => 100000) 0 0 2 0 false
    "network down" (fun _ => rfl) (by intro j; cases j <;> rfl)
    (by decide) rfl

/-- Witness for C10 at two concrete pages and a concrete minute stream. -/
theorem C10_constant_insights_witness :
    fetchPageInsights "a" = fetchPageInsights "b" ∧
    (∀ i : ℕ, topHour insightsData (i % 5) ∈ ([18, 19, 20, 21, 22] : List ℕ)) ∧
    (∀ t ∈ getSmartSchedule "a" 5000 (fun _ => 7) 2,
      ∃ i < 2, t = smartCandidate 5000 (fun _ => 7) insightsData
          (5000 / 1440 + 1) i ∧
        hourOf (preCandidate (fun _ => 7) insightsData (5000 / 1440 + 1) i) ∈
          ([18, 19, 20, 21, 22] : List ℕ)) :=
  C10_constant_insights "a" "b" 5000 (fun _ => 7) 2 (by intro i; norm_num)

/-- Counterexample to C5 as stated: with a failing slot generation the trace
does enter the Running state (`setIsScheduling(true)` precedes generation in
the source), contradicting "the run state remains Idle throughout". -/
theorem C5_counterexample :
    Event.running true ∈ schedulingProcess false 1 true true (.error "boom")
      ⟨fun _ => false, fun _ => false, fun _ => .ok ""⟩ 0 0 := by
  decide

/-- C5 amended: when slot generation throws, the failure is logged and the
run aborts before any item is attempted (no enhancement or publish call
occurs) — but the running flag is set before generation and reset to false
on the abort, rather than staying Idle throughout. -/
theorem C5_generation_failure (env : Env) (n : ℕ) (smart : Bool)
    (msg : String) (now fuel : ℕ) (hn : n ≠ 0) :
    schedulingProcess false n true smart (.error msg) env now fuel =
      startEvents smart n ++ genFailEvents msg ∧
    (∀ j, Event.attempt j ∉
      schedulingProcess false n true smart (.error msg) env now fuel) ∧
    Event.log none .error ("Schedule generation failed: " ++ msg) ∈
      schedulingProcess false n true smart (.error msg) env now fuel ∧
    Event.running true ∈
      schedulingProcess false n true smart (.error msg) env now fuel ∧
    Event.running false ∈
      schedulingProcess false n true smart (.error msg) env now fuel := by
  have hE : schedulingProcess false n true smart (.error msg) env now fuel =
      startEvents smart n ++ genFailEvents msg := by
    rw [schedulingProcess, if_neg (by simp), if_neg (by simp [hn]),
      if_neg (by simp)]
  refine ⟨hE, ?_, ?_, ?_, ?_⟩
  · intro j hj
    rw [hE] at hj
    rcases List.mem_append.mp hj with h | h
    · exact absurd h (attempt_nmem_startEvents smart n j)
    · exact absurd h (attempt_nmem_genFailEvents msg j)
  · rw [hE]
    exact List.mem_append_right _ (by simp [genFailEvents])
  · rw [hE]
    exact List.mem_append_left _ (by simp [startEvents])
  · rw [hE]
    exact List.mem_append_right _ (by simp [genFailEvents])

/-- Witness for C5 amended, at a concrete failing generation. -/
theorem C5_generation_failure_witness :
    schedulingProcess false 1 true true (.error "boom")
        ⟨fun _ => false, fun _ => false, fun _ => .ok ""⟩ 0 0 =
      startEvents true 1 ++ genFailEvents "boom" ∧
    (∀ j, Event.attempt j ∉
      schedulingProcess false 1 true true (.error "boom")
        ⟨fun _ => false, fun _ => false, fun _ => .ok ""⟩ 0 0) ∧
    Event.log none .error ("Schedule generation failed: " ++ "boom") ∈
      schedulingProcess false 1 true true (.error "boom")
        ⟨fun _ => false, fun _ => false, fun _ => .ok ""⟩ 0 0 ∧
    Event.running true ∈
      schedulingProcess false 1 true true (.error "boom")
        ⟨fun _ => false, fun _ => false, fun _ => .ok ""⟩ 0 0 ∧
    Event.running false ∈
      schedulingProcess false 1 true true (.error "boom")
        ⟨fun _ => false, fun _ => false, fun _ => .ok ""⟩ 0 0 :=
  C5_generation_failure ⟨fun _ => false, fun _ => false, fun _ => .ok ""⟩
    1 true "boom" 0 0 (by decide)

theorem itemLog_nmem_startEvents (smart : Bool) (n j : ℕ) (st : LogStatus)
    (s : String) : Event.log (some j) st s ∉ startEvents smart n := by
  simp [startEvents]

theorem itemLog_nmem_smartGenEvents (smart : Bool) (j : ℕ) (st : LogStatus)
    (s : String) : Event.log (some j) st s ∉ smartGenEvents smart := by
  cases smart <;> simp [smartGenEvents]

theorem itemLog_nmem_completionEvents (j : ℕ) (st : LogStatus) (s : String) :
    Event.log (some j) st s ∉ completionEvents := by
  simp [completionEvents]

theorem runLoop_cancel (env : Env) (slots : ℕ → ℕ) (now n fuel : ℕ)
    (hp : ∀ τ, env.pause τ = false) (i₀ : ℕ)
    (hcan0 : env.cancel i₀ = true) (hprev : ∀ τ < i₀, env.cancel τ = false)
    (hna : ∀ j, isAuthOutcome (env.outcome j) = false) :
    ∀ m k, k ≤ i₀ → i₀ < k + m →
      Event.log none .info "Scheduling cancelled by user." ∈
        runLoop env slots now n fuel (List.range' k m) k ∧
      (∀ j, Event.attempt j ∈ runLoop env slots now n fuel (List.range' k m) k ↔
        (k ≤ j ∧ j < i₀)) ∧
      (∀ j st s, i₀ ≤ j →
        Event.log (some j) st s ∉
          runLoop env slots now n fuel (List.range' k m) k) := by
  intro m
  induction m with
  | zero => intro k h1 h2; omega
  | succ m ih =>
    intro k h1 h2
    rw [List.range'_succ]
    by_cases hk : k = i₀
    · subst hk
      rw [runLoop, if_pos hcan0]
      refine ⟨by simp [cancelledEvents], ?_, ?_⟩
      · intro j
        constructor
        · intro hj
          exact absurd hj (attempt_nmem_cancelledEvents j)
        · intro hj
          omega
      · intro j st s hj hmem
        simp [cancelledEvents] at hmem
    · have hklt : k < i₀ := by omega
      have hcank : ¬env.cancel k = true := by simp [hprev k hklt]
      obtain ⟨ih1, ih2, ih3⟩ := ih (k + 1) (by omega) (by omega)
      rw [runLoop, if_neg hcank, pauseWait_of_pause_false env fuel k (hp k)]
      rcases hout : env.outcome k with m2 | p2
      · have hna2 : isAuthMsg m2 = false := by
          have := hna k
          rw [hout] at this
          simpa [isAuthOutcome] using this
        simp only []
        rw [if_neg (by simp [hna2])]
        refine ⟨?_, ?_, ?_⟩
        · exact List.mem_cons_of_mem _ (List.mem_append_right _
            (List.mem_cons_of_mem _ (List.mem_cons_of_mem _ ih1)))
        · intro j
          constructor
          · intro hj
            simp only [List.mem_cons, List.mem_append] at hj
            rcases hj with hj | hj | hj | hj | hj
            · simp at hj
            · exact absurd hj (attempt_not_mem_adjustEvents slots now k j)
            · simp only [Event.attempt.injEq] at hj
              omega
            · simp at hj
            · have := (ih2 j).mp hj
              omega
          · intro hj
            by_cases hjk : j = k
            · subst hjk
              simp
            · have hrec : Event.attempt j ∈ runLoop env slots now n fuel
                  (List.range' (k + 1) m) (k + 1) :=
                (ih2 j).mpr (by omega)
              exact List.mem_cons_of_mem _ (List.mem_append_right _
                (List.mem_cons_of_mem _ (List.mem_cons_of_mem _ hrec)))
        · intro j st s hj hmem
          simp only [List.mem_cons, List.mem_append] at hmem
          rcases hmem with hm | hm | hm | hm | hm
          · simp at hm
          · have := mem_adjustEvents slots now k _ hm
            simp only [Event.log.injEq, Option.some.injEq] at this
            omega
          · simp at hm
          · simp only [Event.log.injEq, Option.some.injEq] at hm
            omega
          · exact ih3 j st s hj hm
      · simp only []
        refine ⟨?_, ?_, ?_⟩
        · exact List.mem_cons_of_mem _ (List.mem_append_right _
            (List.mem_cons_of_mem _ (List.mem_cons_of_mem _ ih1)))
        · intro j
          constructor
          · intro hj
            simp only [List.mem_cons, List.mem_append] at hj
            rcases hj with hj | hj | hj | hj | hj
            · simp at hj
            · exact absurd hj (attempt_not_mem_adjustEvents slots now k j)
            · simp only [Event.attempt.injEq] at hj
              omega
            · simp at hj
            · have := (ih2 j).mp hj
              omega
          · intro hj
            by_cases hjk : j = k
            · subst hjk
              simp
            · have hrec : Event.attempt j ∈ runLoop env slots now n fuel
                  (List.range' (k + 1) m) (k + 1) :=
                (ih2 j).mpr (by omega)
              exact List.mem_cons_of_mem _ (List.mem_append_right _
                (List.mem_cons_of_mem _ (List.mem_cons_of_mem _ hrec)))
        · intro j st s hj hmem
          simp only [List.mem_cons, List.mem_append] at hmem
          rcases hmem with hm | hm | hm | hm | hm
          · simp at hm
          · have := mem_adjustEvents slots now k _ hm
            simp only [Event.log.injEq, Option.some.injEq] at this
            omega
          · simp at hm
          · simp only [Event.log.injEq, Option.some.injEq] at hm
            omega
          · exact ih3 j st s hj hm

/-- Counterexample to C6 as stated: the toggle (cancel flag) fires at
suspension point 1, i.e. while the single item of the run is in flight — a
run in progress — yet the completed trace contains no "cancelled by user"
entry, because the flag is never observed at a top-of-loop check. -/
theorem C6_counterexample :
    Event.log none .info "Scheduling cancelled by user." ∉
      schedulingProcess false 1 true false (.ok fun _ => 100000)
        ⟨fun _ => false, fun τ => decide (1 ≤ τ), fun _ => .ok "1"⟩ 0 0 := by
  decide

/-- C6 amended: the toggle invoked while a run is in progress sets the
cancellation flag, logs the stop notice and returns without starting a new
run; and if (in an un-paused run with no fatal failures) the flag becomes
observably set at suspension point `i₀ < n` — that is, no later than the
last item's top-of-loop check — the run stops there: it logs "cancelled by
user", attempts exactly the items before `i₀`, and has no log entry for any
item from `i₀` on.  (When the flag is only set during the final item, the
run completes without the "cancelled by user" entry.) -/
theorem C6_toggle_and_cancellation (env : Env) (slots : ℕ → ℕ)
    (now fuel n i₀ : ℕ) (smart : Bool)
    (hp : ∀ τ, env.pause τ = false)
    (hcan0 : env.cancel i₀ = true)
    (hprev : ∀ τ < i₀, env.cancel τ = false)
    (hna : ∀ j, isAuthOutcome (env.outcome j) = false)
    (hn : i₀ < n) :
    (∀ (n' : ℕ) (hasPage smart' : Bool) (gen : Except String (ℕ → ℕ))
      (env' : Env) (now' fuel' : ℕ),
      schedulingProcess true n' hasPage smart' gen env' now' fuel' =
        [Event.setCancel true,
         Event.log none .info "Stopping scheduling process..."]) ∧
    Event.log none .info "Scheduling cancelled by user." ∈
      schedulingProcess false n true smart (.ok slots) env now fuel ∧
    (∀ j, Event.attempt j ∈
      schedulingProcess false n true smart (.ok slots) env now fuel ↔
        j < i₀) ∧
    (∀ j st s, i₀ ≤ j → Event.log (some j) st s ∉
      schedulingProcess false n true smart (.ok slots) env now fuel) := by
  have hn0 : ¬n = 0 := by omega
  have hEok : schedulingProcess false n true smart (.ok slots) env now fuel =
      startEvents smart n ++ (smartGenEvents smart ++
        (runLoop env slots now n fuel (List.range' 0 n) 0 ++
          completionEvents)) := by
    rw [schedulingProcess, if_neg (by simp), if_neg (by simp [hn0]),
      if_neg (by simp), List.range_eq_range']
    simp
  obtain ⟨L1, L2, L3⟩ := runLoop_cancel env slots now n fuel hp i₀ hcan0
    hprev hna n 0 (by omega) (by omega)
  refine ⟨fun _ _ _ _ _ _ _ => rfl, ?_, ?_, ?_⟩
  · rw [hEok]
    exact List.mem_append_right _ (List.mem_append_right _
      (List.mem_append_left _ L1))
  · intro j
    constructor
    · intro hj
      rw [hEok] at hj
      simp only [List.mem_append] at hj
      rcases hj with hj | hj | hj | hj
      · exact absurd hj (attempt_nmem_startEvents smart n j)
      · exact absurd hj (attempt_nmem_smartGenEvents smart j)
      · exact ((L2 j).mp hj).2
      · exact absurd hj (attempt_nmem_completionEvents j)
    · intro hj
      rw [hEok]
      exact List.mem_append_right _ (List.mem_append_right _
        (List.mem_append_left _ ((L2 j).mpr ⟨by omega, hj⟩)))
  · intro j st s hij hmem
    rw [hEok] at hmem
    simp only [List.mem_append] at hmem
    rcases hmem with hm | hm | hm | hm
    · exact absurd hm (itemLog_nmem_startEvents smart n j st s)
    · exact absurd hm (itemLog_nmem_smartGenEvents smart j st s)
    · exact L3 j st s hij hm
    · exact absurd hm (itemLog_nmem_completionEvents j st s)

/-- A run with three items in which the cancel flag becomes set at
suspension point 2 (during the processing of item 1). -/
def envCancel : Env :=
  ⟨fun _ => false, fun τ => decide (2 ≤ τ), fun _ => .ok "1"⟩

/-- Witness for C6 amended at a concrete cancelled run. -/
theorem C6_toggle_and_cancellation_witness :
    (∀ (n' : ℕ) (hasPage smart' : Bool) (gen : Except String (ℕ → ℕ))
      (env' : Env) (now' fuel' : ℕ),
      schedulingProcess true n' hasPage smart' gen env' now' fuel' =
        [Event.setCancel true,
         Event.log none .info "Stopping scheduling process..."]) ∧
    Event.log none .info "Scheduling cancelled by user." ∈
      schedulingProcess false 3 true false (.ok fun _ => 100000)
        envCancel 0 0 ∧
    (∀ j, Event.attempt j ∈
      schedulingProcess false 3 true false (.ok fun _ => 100000)
        envCancel 0 0 ↔ j < 2) ∧
    (∀ j st s, 2 ≤ j → Event.log (some j) st s ∉
      schedulingProcess false 3 true false (.ok fun _ => 100000)
        envCancel 0 0) :=
  C6_toggle_and_cancellation envCancel (fun _ => 100000) 0 0 3 2 false
    (fun _ => rfl) rfl (by decide) (fun _ => rfl) (by decide)

theorem le_pauseWait (env : Env) : ∀ f τ, τ ≤ pauseWait env f τ := by
  intro f
  induction f with
  | zero => intro τ; simp [pauseWait]
  | succ f ih =>
    intro τ
    rw [pauseWait]
    split
    · split
      · omega
      · have := ih (τ + 1)
        omega
    · omega

/-- Counterexample to C3 as stated: the runner of the uploader page is
paused at item 0 (pause flag true at suspension points 0 and 1); the cancel
flag becomes set at suspension point 1, i.e. during the pause wait. The
`break` of the source only exits the inner pause loop, so item 0 is still
enhanced and published — the claim says it must not be processed. -/
theorem C3_counterexample :
    Event.attempt 0 ∈
      schedulingProcess false 2 true false (.ok fun _ => 100000)
        ⟨fun τ => decide (τ ≤ 1), fun τ => decide (1 ≤ τ), fun _ => .ok "1"⟩
        0 5 := by
  decide

/-- C3 amended: if the cancellation flag becomes set while the runner waits
in the pause loop for item `i` (the wait exits with the flag set), only the
pause wait is exited: item `i` is still processed (its enhancement + publish
call happens), and the cancellation takes effect at the top of the next
iteration, so no later item is processed and — when items remain — the
"cancelled by user" entry is logged. -/
theorem C3_cancel_during_pause (env : Env) (slots : ℕ → ℕ)
    (now n fuel i : ℕ) (rest : List ℕ) (τ : ℕ)
    (hmono : ∀ τ₁ τ₂, τ₁ ≤ τ₂ → env.cancel τ₁ = true → env.cancel τ₂ = true)
    (henter : env.cancel τ = false) (hpause : env.pause τ = true)
    (hcaught : env.cancel (pauseWait env fuel τ) = true)
    (hna : isAuthOutcome (env.outcome i) = false) (hni : i ∉ rest) :
    Event.attempt i ∈ runLoop env slots now n fuel (i :: rest) τ ∧
    (∀ j ∈ rest,
      Event.attempt j ∉ runLoop env slots now n fuel (i :: rest) τ) ∧
    (rest ≠ [] → Event.log none .info "Scheduling cancelled by user." ∈
      runLoop env slots now n fuel (i :: rest) τ) := by
  have hcanτ : ¬env.cancel τ = true := by simp [henter]
  have hcanrec : env.cancel (pauseWait env fuel τ + 1) = true :=
    hmono _ _ (by omega) hcaught
  have htail : ∀ e, e ∈ runLoop env slots now n fuel rest
      (pauseWait env fuel τ + 1) → e ∈ cancelledEvents := by
    intro e he
    cases rest with
    | nil => simp [runLoop] at he
    | cons r rs =>
      rw [runLoop, if_pos hcanrec] at he
      exact he
  refine ⟨?_, ?_, ?_⟩
  · rw [runLoop, if_neg hcanτ]
    rcases hout : env.outcome i with m2 | p2 <;> simp
  · intro j hj hmem
    have hji : ¬j = i := fun h => hni (h ▸ hj)
    rcases hout : env.outcome i with m2 | p2
    · have hna2 : isAuthMsg m2 = false := by
        rw [hout] at hna
        simpa [isAuthOutcome] using hna
      rw [runLoop, if_neg hcanτ] at hmem
      rw [hout] at hmem
      simp only [] at hmem
      rw [if_neg (by simp [hna2])] at hmem
      simp only [List.mem_cons, List.mem_append] at hmem
      rcases hmem with hm | hm | hm | hm | hm
      · simp at hm
      · exact absurd hm (attempt_not_mem_adjustEvents slots now i j)
      · simp only [Event.attempt.injEq] at hm
        exact hji hm
      · simp at hm
      · exact absurd (htail _ hm) (attempt_nmem_cancelledEvents j)
    · rw [runLoop, if_neg hcanτ] at hmem
      rw [hout] at hmem
      simp only [] at hmem
      simp only [List.mem_cons, List.mem_append] at hmem
      rcases hmem with hm | hm | hm | hm | hm
      · simp at hm
      · exact absurd hm (attempt_not_mem_adjustEvents slots now i j)
      · simp only [Event.attempt.injEq] at hm
        exact hji hm
      · simp at hm
      · exact absurd (htail _ hm) (attempt_nmem_cancelledEvents j)
  · intro hrest
    have hcancelmem : Event.log none .info "Scheduling cancelled by user." ∈
        runLoop env slots now n fuel rest (pauseWait env fuel τ + 1) := by
      cases rest with
      | nil => exact absurd rfl hrest
      | cons r rs =>
        rw [runLoop, if_pos hcanrec]
        simp [cancelledEvents]
    exact mem_runLoop_tail env slots now n fuel i rest τ hcanτ hna _
      hcancelmem

/-- A two-item run, paused at suspension points 0 and 1, whose cancel flag
becomes set at suspension point 1 (during the pause wait of item 0). -/
def envPauseCancel : Env :=
  ⟨fun τ => decide (τ ≤ 1), fun τ => decide (1 ≤ τ), fun _ => .ok "1"⟩

/-- Witness for C3 amended at the concrete paused-then-cancelled run. -/
theorem C3_cancel_during_pause_witness :
    Event.attempt 0 ∈
      runLoop envPauseCancel (fun _ => 100000) 0 2 5 [0, 1] 0 ∧
    (∀ j ∈ [1],
      Event.attempt j ∉ runLoop envPauseCancel (fun _ => 100000) 0 2 5 [0, 1] 0) ∧
    ([1] ≠ ([] : List ℕ) →
      Event.log none .info "Scheduling cancelled by user." ∈
        runLoop envPauseCancel (fun _ => 100000) 0 2 5 [0, 1] 0) :=
  C3_cancel_during_pause envPauseCancel (fun _ => 100000) 0 2 5 0 [1] 0
    (by intro τ₁ τ₂ h1 h2; simp only [envPauseCancel, decide_eq_true_eq] at *; omega)
    rfl rfl (by decide) rfl (by decide)

/-! ### Cross-post runner (`handleSchedulingProcess` / `uploadCrossPost` of
the cross-post page)

The dedup store (`crossPostHistory`) is the set of `postId|destinationId`
history keys, modelled as a list of key strings; `key i` is the history key
of queue item `i` paired with the selected destination. -/

/-- The pause wait of the cross-post page:
`while (isPausedRef.current) await sleep(1000);` — it does not check the
cancel flag. -/
def crossPauseWait (env : Env) : ℕ → ℕ → ℕ
  | 0, τ => τ
  | f + 1, τ => if env.pause τ then crossPauseWait env f (τ + 1) else τ

theorem crossPauseWait_of_pause_false (env : Env) (f τ : ℕ)
    (h : env.pause τ = false) : crossPauseWait env f τ = τ := by
  cases f <;> simp [crossPauseWait, h]

def skipLogMsg : String :=
  "Skipped: This post has already been cross-posted to the destination page."

/-- `uploadCrossPost`, staged: `enh` is the caption generation of the
enhancement step (the image manipulation falls back internally and cannot
throw), `media` the photo upload, `post` the feed-post creation; each is the
collaborator's result or the thrown error message.  Returns the events
(including the history persistence write on success), the updated history
store, and the error propagated to the caller, if any. -/
def uploadCrossPost (i : ℕ) (store : List String) (key : String)
    (enh media post : Except String String) :
    List Event × List String × Option String :=
  match enh with
  | .error m => ([.log (some i) .info "Enhancing post..."], store, some m)
  | .ok caption =>
    match media with
    | .error m =>
      ([.log (some i) .info "Enhancing post...",
        .log (some i) .info ("Caption ready: " ++ caption)],
       store, some ("Media upload failed: " ++ m))
    | .ok mediaId =>
      match post with
      | .error m =>
        ([.log (some i) .info "Enhancing post...",
          .log (some i) .info ("Caption ready: " ++ caption),
          .log (some i) .info
            ("Media uploaded (ID: " ++ mediaId ++ "). Creating post...")],
         store, some ("Post creation failed: " ++ m))
      | .ok postId =>
        ([.log (some i) .info "Enhancing post...",
          .log (some i) .info ("Caption ready: " ++ caption),
          .log (some i) .info
            ("Media uploaded (ID: " ++ mediaId ++ "). Creating post..."),
          .persist (key :: store),
          .log (some i) .success ("Scheduled successfully! ID: " ++ postId)],
         key :: store, none)

def exceptOk : Except String String → Bool
  | .ok _ => true
  | .error _ => false

/-- The per-item loop of the cross-post `handleSchedulingProcess`: cancel
check (logging only, no notification), pause wait, progress, dedup check —
a hit logs the skip and `continue`s, skipping the upload and the
schedule-time advance — then `uploadCrossPost` and the manual-cadence
advance of the running schedule time.  (The lead-time correction of this
page operates on a copy of the schedule time and emits no event.) -/
def crossLoop (env : Env) (cfg : ManualConfig) (key : ℕ → String)
    (enh media post : ℕ → Except String String) (n fuel : ℕ) :
    List ℕ → ℕ → List String → ℕ → List Event
  | [], _, _, _ => []
  | i :: rest, τ, store, sched =>
    if env.cancel τ then [.log none .info "Scheduling cancelled by user."]
    else
      .progress (i + 1) n ::
      (if key i ∈ store then
        .log (some i) .info skipLogMsg ::
          crossLoop env cfg key enh media post n fuel rest
            (crossPauseWait env fuel τ) store sched
      else
        .attempt i ::
        ((uploadCrossPost i store (key i) (enh i) (media i) (post i)).1 ++
          match (uploadCrossPost i store (key i) (enh i) (media i)
              (post i)).2.2 with
          | none =>
            crossLoop env cfg key enh media post n fuel rest
              (crossPauseWait env fuel τ + 1)
              (uploadCrossPost i store (key i) (enh i) (media i) (post i)).2.1
              (manualStep cfg sched)
          | some m =>
            .log (some i) .error ("Failed: " ++ m) ::
              if isAuthMsg m then authAbortEvents
              else crossLoop env cfg key enh media post n fuel rest
                (crossPauseWait env fuel τ + 1)
                (uploadCrossPost i store (key i) (enh i) (media i)
                  (post i)).2.1
                (manualStep cfg sched)))

theorem eventItem_uploadCrossPost (i : ℕ) (store : List String) (key : String)
    (enh media post : Except String String) (e : Event) (j : ℕ)
    (he : e ∈ (uploadCrossPost i store key enh media post).1)
    (hj : eventItem e = some j) : j = i := by
  rcases enh with m | c
  · simp only [uploadCrossPost, List.mem_cons, List.not_mem_nil,
      or_false] at he
    subst he
    simp only [eventItem, Option.some.injEq] at hj
    omega
  · rcases media with m2 | mid
    · simp only [uploadCrossPost, List.mem_cons, List.not_mem_nil,
        or_false] at he
      rcases he with rfl | rfl <;>
        simp only [eventItem, Option.some.injEq] at hj <;> omega
    · rcases post with m3 | pid
      · simp only [uploadCrossPost, List.mem_cons, List.not_mem_nil,
          or_false] at he
        rcases he with rfl | rfl | rfl <;>
          simp only [eventItem, Option.some.injEq] at hj <;> omega
      · simp only [uploadCrossPost, List.mem_cons, List.not_mem_nil,
          or_false] at he
        rcases he with rfl | rfl | rfl | rfl | rfl <;>
          simp only [eventItem, Option.some.injEq] at hj <;>
          first
          | omega
          | simp [eventItem] at hj

theorem eventItem_mem_crossLoop (env : Env) (cfg : ManualConfig)
    (key : ℕ → String) (enh media post : ℕ → Except String String)
    (n fuel j : ℕ) :
    ∀ items τ store sched e,
      e ∈ crossLoop env cfg key enh media post n fuel items τ store sched →
      eventItem e = some j → j ∈ items := by
  intro items
  induction items with
  | nil => intro τ store sched e h _; simp [crossLoop] at h
  | cons i rest ih =>
    intro τ store sched e h hj
    by_cases hcan : env.cancel τ
    · rw [crossLoop, if_pos hcan] at h
      simp only [List.mem_cons, List.not_mem_nil, or_false] at h
      subst h
      simp [eventItem] at hj
    · rw [crossLoop, if_neg hcan] at h
      by_cases hkey : key i ∈ store
      · rw [if_pos hkey] at h
        simp only [List.mem_cons] at h
        rcases h with rfl | rfl | h
        · simp [eventItem] at hj
        · simp only [eventItem, Option.some.injEq] at hj
          simp [hj]
        · exact List.mem_cons_of_mem _ (ih _ _ _ e h hj)
      · rw [if_neg hkey] at h
        rcases hu : (uploadCrossPost i store (key i) (enh i) (media i)
            (post i)).2.2 with _ | m
        · rw [hu] at h
          simp only [List.mem_cons, List.mem_append] at h
          rcases h with rfl | rfl | h | h
          · simp [eventItem] at hj
          · simp only [eventItem, Option.some.injEq] at hj
            simp [hj]
          · have := eventItem_uploadCrossPost i store (key i) (enh i)
              (media i) (post i) e j h hj
            simp [this]
          · exact List.mem_cons_of_mem _ (ih _ _ _ e h hj)
        · rw [hu] at h
          simp only [List.mem_cons, List.mem_append] at h
          rcases h with rfl | rfl | h | rfl | h
          · simp [eventItem] at hj
          · simp only [eventItem, Option.some.injEq] at hj
            simp [hj]
          · have := eventItem_uploadCrossPost i store (key i) (enh i)
              (media i) (post i) e j h hj
            simp [this]
          · simp only [eventItem, Option.some.injEq] at hj
            simp [hj]
          · split at h
            · simp only [authAbortEvents, List.mem_cons, List.not_mem_nil,
                or_false] at h
              rcases h with rfl | rfl <;> simp [eventItem] at hj
            · exact List.mem_cons_of_mem _ (ih _ _ _ e h hj)

/-- C7: when the dedup key of the item being reached is present in the
history store (with the runner not cancelled and not paused at that point),
the iteration emits exactly the progress update and the informational skip
entry and continues directly with the next item — same store, same schedule
time — and the whole remaining trace contains no enhancement/publish call
for that item and no error entry for it. -/
theorem C7_dedup_skip (env : Env) (cfg : ManualConfig) (key : ℕ → String)
    (enh media post : ℕ → Except String String) (n fuel i : ℕ)
    (rest : List ℕ) (τ : ℕ) (store : List String) (sched : ℕ)
    (hcan : env.cancel τ = false) (hpause : env.pause τ = false)
    (hkey : key i ∈ store) (hni : i ∉ rest) :
    crossLoop env cfg key enh media post n fuel (i :: rest) τ store sched =
      Event.progress (i + 1) n :: Event.log (some i) .info skipLogMsg ::
        crossLoop env cfg key enh media post n fuel rest τ store sched ∧
    Event.attempt i ∉
      crossLoop env cfg key enh media post n fuel (i :: rest) τ store sched ∧
    (∀ s, Event.log (some i) .error s ∉
      crossLoop env cfg key enh media post n fuel (i :: rest) τ store sched) := by
  have heq : crossLoop env cfg key enh media post n fuel (i :: rest) τ
      store sched =
      Event.progress (i + 1) n :: Event.log (some i) .info skipLogMsg ::
        crossLoop env cfg key enh media post n fuel rest τ store sched := by
    rw [crossLoop, if_neg (by simp [hcan]), if_pos hkey,
      crossPauseWait_of_pause_false env fuel τ hpause]
  refine ⟨heq, ?_, ?_⟩
  · intro hmem
    rw [heq] at hmem
    simp only [List.mem_cons] at hmem
    rcases hmem with hm | hm | hm
    · simp at hm
    · simp at hm
    · exact hni (eventItem_mem_crossLoop env cfg key enh media post n fuel i
        rest τ store sched _ hm rfl)
  · intro s hmem
    rw [heq] at hmem
    simp only [List.mem_cons] at hmem
    rcases hmem with hm | hm | hm
    · simp at hm
    · simp at hm
    · exact hni (eventItem_mem_crossLoop env cfg key enh media post n fuel i
        rest τ store sched _ hm rfl)

/-- Witness for C7: item 0's key is already in the history store. -/
theorem C7_dedup_skip_witness :
    crossLoop ⟨fun _ => false, fun _ => false, fun _ => .ok ""⟩
        (demoConfig 0) (fun j => if j = 0 then "a" else "b")
        (fun _ => .ok "c") (fun _ => .ok "m") (fun _ => .ok "p") 2 0
        [0, 1] 0 ["a"] 540 =
      Event.progress 1 2 :: Event.log (some 0) .info skipLogMsg ::
        crossLoop ⟨fun _ => false, fun _ => false, fun _ => .ok ""⟩
          (demoConfig 0) (fun j => if j = 0 then "a" else "b")
          (fun _ => .ok "c") (fun _ => .ok "m") (fun _ => .ok "p") 2 0
          [1] 0 ["a"] 540 ∧
    Event.attempt 0 ∉
      crossLoop ⟨fun _ => false, fun _ => false, fun _ => .ok ""⟩
        (demoConfig 0) (fun j => if j = 0 then "a" else "b")
        (fun _ => .ok "c") (fun _ => .ok "m") (fun _ => .ok "p") 2 0
        [0, 1] 0 ["a"] 540 ∧
    (∀ s, Event.log (some 0) .error s ∉
      crossLoop ⟨fun _ => false, fun _ => false, fun _ => .ok ""⟩
        (demoConfig 0) (fun j => if j = 0 then "a" else "b")
        (fun _ => .ok "c") (fun _ => .ok "m") (fun _ => .ok "p") 2 0
        [0, 1] 0 ["a"] 540) :=
  C7_dedup_skip ⟨fun _ => false, fun _ => false, fun _ => .ok ""⟩
    (demoConfig 0) (fun j => if j = 0 then "a" else "b")
    (fun _ => .ok "c") (fun _ => .ok "m") (fun _ => .ok "p") 2 0 0
    [1] 0 ["a"] 540 rfl rfl (by decide) (by decide)

/-- C9: the dedup store is updated atomically with success — the key is
added (and the persistence write emitted) exactly when the feed-post
creation succeeded after the enhancement and media upload; on any failure
the store is unchanged and no persistence write occurs. -/
theorem C9_dedup_atomic (i : ℕ) (store : List String) (key : String)
    (enh media post : Except String String) :
    ((uploadCrossPost i store key enh media post).2.2 = none →
      (uploadCrossPost i store key enh media post).2.1 = key :: store ∧
      Event.persist (key :: store) ∈
        (uploadCrossPost i store key enh media post).1) ∧
    ((uploadCrossPost i store key enh media post).2.2 ≠ none →
      (uploadCrossPost i store key enh media post).2.1 = store ∧
      ∀ s, Event.persist s ∉ (uploadCrossPost i store key enh media post).1) ∧
    ((uploadCrossPost i store key enh media post).2.2 = none ↔
      exceptOk enh = true ∧ exceptOk media = true ∧ exceptOk post = true) := by
  rcases enh with m | c <;> rcases media with m2 | mid <;>
    rcases post with m3 | pid <;> simp [uploadCrossPost, exceptOk]

/-- Witness for C9: a fully successful upload adds the key and persists. -/
theorem C9_dedup_atomic_witness :
    (uploadCrossPost 0 [] "k" (.ok "c") (.ok "m") (.ok "p")).2.1 = ["k"] ∧
    Event.persist ["k"] ∈ (uploadCrossPost 0 [] "k" (.ok "c") (.ok "m")
      (.ok "p")).1 :=
  (C9_dedup_atomic 0 [] "k" (.ok "c") (.ok "m") (.ok "p")).1 rfl

end Scheduler
